import Mathlib

/-!
Shallow embedding of the dfs storage engine (generation 5 sources:
backend/metadata_server/metadata5.py, backend/api_gateway/api5.py,
backend/node.py).

Modelling conventions:
* A Python dict is modelled as an association list (List (key × value));
  lookup returns the first matching entry, insertion replaces the value of an
  existing key in place and appends otherwise, deletion filters the key out.
  These mirror dict semantics since dict keys are unique.
* Chunk identifiers are uuid4 strings in the source; they are modelled as
  natural numbers drawn from a fresh counter carried in the metadata state,
  which captures exactly the global-uniqueness property of uuid4 that the
  code relies on.
* Byte strings are modelled as List Nat (the byte values are opaque to every
  algorithm modelled here).  Python truthiness of a byte string is emptiness.
* Timestamps are modelled as natural numbers (seconds); datetime.now() is an
  explicit parameter of the operations that read the clock.
* The set of storage-node blob stores is an association list from node id to
  that node's blobs.  A node id that is absent from this list models a node
  that is unknown to NODE_MAP or unreachable: every HTTP call to it raises,
  which each caller catches and ignores (reconciler) or turns into a 500
  (download path).
-/

deriving instance DecidableEq for Except

namespace DFS

/-- Configured chunk size, 4 MiB (metadata5.py and api5.py, CHUNK_SIZE). -/
def CHUNK_SIZE : Nat := 4194304

/-- Identifiers of the configured nodes, in NODE_MAP insertion order
(metadata5.py, NODE_MAP). -/
def NODE_IDS : List String := ["node1", "node2", "node3"]

/-- Lease duration in seconds (metadata5.py, LEASE_DURATION). -/
def LEASE_DURATION : Nat := 60

section AList

variable {α : Type} {β : Type} [DecidableEq α]

/-- Lookup in an association list modelling a Python dict read d[k]. -/
def alookup (k : α) : List (α × β) → Option β
  | [] => none
  | (k2, v) :: t => if k2 = k then some v else alookup k t

/-- Insert-or-replace modelling a Python dict write d[k] = v: the value of an
existing key is replaced in place, a new key is appended at the end. -/
def aupsert (k : α) (v : β) : List (α × β) → List (α × β)
  | [] => [(k, v)]
  | (k2, v2) :: t => if k2 = k then (k, v) :: t else (k2, v2) :: aupsert k v t

/-- Deletion modelling Python del d[k]. -/
def aerase (k : α) (l : List (α × β)) : List (α × β) :=
  l.filter (fun e => decide (e.1 ≠ k))

@[simp]
theorem alookup_nil (k : α) : alookup k ([] : List (α × β)) = none := rfl

theorem alookup_aupsert (k k2 : α) (v : β) (l : List (α × β)) :
    alookup k2 (aupsert k v l) = if k = k2 then some v else alookup k2 l := by
  induction l with
  | nil => simp only [aupsert, alookup]
  | cons e t ih =>
    obtain ⟨k3, v3⟩ := e
    by_cases h3 : k3 = k
    · subst h3
      by_cases h2 : k3 = k2
      · subst h2; simp [aupsert, alookup]
      · have h2s : ¬ k3 = k2 := h2
        simp [aupsert, alookup, h2s]
    · by_cases h2 : k3 = k2
      · subst h2
        have hk : ¬ k = k3 := fun h => h3 h.symm
        simp [aupsert, alookup, h3, hk]
      · simp [aupsert, alookup, h3, h2, ih]

@[simp]
theorem alookup_aupsert_self (k : α) (v : β) (l : List (α × β)) :
    alookup k (aupsert k v l) = some v := by
  simp [alookup_aupsert]

theorem alookup_aupsert_ne (k k2 : α) (v : β) (l : List (α × β)) (h : k ≠ k2) :
    alookup k2 (aupsert k v l) = alookup k2 l := by
  simp [alookup_aupsert, h]

theorem alookup_aerase (k k2 : α) (l : List (α × β)) :
    alookup k2 (aerase k l) = if k2 = k then none else alookup k2 l := by
  induction l with
  | nil =>
    simp only [aerase, List.filter_nil, alookup]
    split <;> rfl
  | cons e t ih =>
    obtain ⟨k3, v3⟩ := e
    by_cases h3 : k3 = k
    · subst h3
      have hdrop : aerase k3 ((k3, v3) :: t) = aerase k3 t := by
        simp [aerase]
      rw [hdrop, ih]
      by_cases h2 : k2 = k3
      · simp [h2]
      · have hk2 : ¬ k3 = k2 := fun h => h2 h.symm
        simp [h2, alookup, hk2]
    · have hkeep : aerase k ((k3, v3) :: t) = (k3, v3) :: aerase k t := by
        simp [aerase, h3]
      rw [hkeep]
      by_cases h2 : k3 = k2
      · subst h2
        have hne : ¬ k3 = k := h3
        simp [alookup, hne]
      · simp [alookup, h2, ih]

@[simp]
theorem alookup_aerase_self (k : α) (l : List (α × β)) :
    alookup k (aerase k l) = none := by
  simp [alookup_aerase]

theorem alookup_aerase_ne (k k2 : α) (l : List (α × β)) (h : k2 ≠ k) :
    alookup k2 (aerase k l) = alookup k2 l := by
  simp [alookup_aerase, h]

theorem alookup_mem {k : α} {v : β} {l : List (α × β)}
    (h : alookup k l = some v) : (k, v) ∈ l := by
  induction l with
  | nil => simp [alookup] at h
  | cons e t ih =>
    obtain ⟨k2, v2⟩ := e
    by_cases h2 : k2 = k
    · subst h2; simp [alookup] at h; simp [h]
    · simp [alookup, h2] at h
      exact List.mem_cons_of_mem _ (ih h)

end AList

/-- Record stored in chunk_metadata for one chunk identifier
(metadata5.py, create_file). -/
structure ChunkInfo where
  chunk_servers : List String
  version : Nat
  primary : String
  lease_expiration : Nat
deriving DecidableEq

/-- Metadata-server state: the two persisted dicts of metadata.json
(metadata5.py, load_metadata / save_metadata), plus the counter that models
uuid4 chunk-identifier freshness. -/
structure Meta where
  file_to_chunks : List (String × List Nat)
  chunk_metadata : List (Nat × ChunkInfo)
  nextId : Nat
deriving DecidableEq

/-- Empty metadata state, as produced by load_metadata on a fresh install. -/
def mEmpty : Meta := ⟨[], [], 0⟩

/-- Replica assignment computed inside the create_file loop
(metadata5.py lines 199-203): for i in range(2), pick
available_nodes[i % len(available_nodes)]. -/
def assignServers : List String :=
  (List.range 2).map (fun i => NODE_IDS.getD (i % NODE_IDS.length) "")

/-- ChunkRecord created for each fresh chunk (metadata5.py lines 205-210). -/
def mkChunkInfo (now : Nat) : ChunkInfo :=
  ⟨assignServers, 0, assignServers.getD 0 "", now + LEASE_DURATION⟩

/-- POST /api/file handler create_file (metadata5.py lines 182-219).
Computes chunk_count = (size + CHUNK_SIZE - 1) // CHUNK_SIZE with Python
floor division (sizes are Int: the handler performs no validation of
negative sizes), draws chunk_count fresh chunk identifiers, registers the
path, and inserts one ChunkRecord per chunk.  The handler always answers
HTTP 200 with the path and the chunk list; there is no error branch.
Returns the new state together with the chunk list of the response. -/
def createFile (m : Meta) (path : String) (size : Int) (now : Nat) :
    Meta × List Nat :=
  let chunkCount : Nat := ((size + (CHUNK_SIZE : Int) - 1).fdiv CHUNK_SIZE).toNat
  let chunks : List Nat := (List.range chunkCount).map (fun i => m.nextId + i)
  let f2c := aupsert path chunks m.file_to_chunks
  let cm := chunks.foldl (fun cm2 cid => aupsert cid (mkChunkInfo now) cm2)
    m.chunk_metadata
  (⟨f2c, cm, m.nextId + chunkCount⟩, chunks)

/-- Response body of GET /api/file (metadata5.py lines 221-246). -/
structure FileResp where
  size : Nat
  chunks : List (Nat × List String)
deriving DecidableEq

/-- GET /api/file handler get_file_metadata (metadata5.py lines 221-246).
Returns none for the 404 branch.  The size field is the literal 0 the
handler puts in the response (the source comments it as a placeholder);
the chunk list pairs each chunk id still present in chunk_metadata with its
chunk_servers, silently skipping ids with no record. -/
def getFileMetadata (m : Meta) (path : String) : Option FileResp :=
  match alookup path m.file_to_chunks with
  | none => none
  | some cids =>
    some ⟨0, cids.filterMap (fun cid =>
      (alookup cid m.chunk_metadata).map (fun info => (cid, info.chunk_servers)))⟩

/-- PUT /api/file/rename handler rename_file (metadata5.py lines 261-276).
Returns none for the 404 branch.  Mirrors the statement order of the
source: first file_to_chunks[new_path] = file_to_chunks[old_path], then
del file_to_chunks[old_path]. -/
def renameFile (m : Meta) (oldPath newPath : String) : Option Meta :=
  match alookup oldPath m.file_to_chunks with
  | none => none
  | some cids =>
    some { m with
      file_to_chunks := aerase oldPath (aupsert newPath cids m.file_to_chunks) }

/-- Chunk-record removal loop of delete_file (metadata5.py lines 290-292):
for each chunk id, if it is in chunk_metadata, del it. -/
def purgeChunks (cm : List (Nat × ChunkInfo)) (cids : List Nat) :
    List (Nat × ChunkInfo) :=
  cids.foldl (fun cm2 cid =>
    if (alookup cid cm2).isSome then aerase cid cm2 else cm2) cm

/-- DELETE /api/file handler delete_file (metadata5.py lines 278-303).
Returns none for the 404 branch, otherwise the new state and the
chunks_deleted list of the response.  The handler only mutates the two
metadata dicts; it performs no HTTP call to any storage node. -/
def deleteFile (m : Meta) (path : String) : Option (Meta × List Nat) :=
  match alookup path m.file_to_chunks with
  | none => none
  | some cids =>
    some ({ m with
      file_to_chunks := aerase path m.file_to_chunks,
      chunk_metadata := purgeChunks m.chunk_metadata cids }, cids)

/-- Blob store of one node: chunk id to stored bytes (node.py,
CHUNK_STORAGE_DIR contents). -/
abbrev Blobs : Type := List (Nat × List Nat)

/-- Blob stores of all reachable configured nodes, keyed by node id. -/
abbrev Stores : Type := List (String × Blobs)

/-- POST /chunk handler upload_chunk (node.py lines 28-48): 400 when the
chunk-id header is missing and 400 when the request body is empty, leaving
the store untouched; otherwise writes (overwriting) and answers 201. -/
def uploadChunk (bl : Blobs) (cid : Option Nat) (data : List Nat) :
    Nat × Blobs :=
  match cid with
  | none => (400, bl)
  | some c => if data = [] then (400, bl) else (201, aupsert c data bl)

/-- GET /chunk/id/exists handler check_chunk_exists (node.py lines 90-99). -/
def chunkExists (bl : Blobs) (c : Nat) : Bool :=
  (alookup c bl).isSome

/-- GET /chunk/id handler download_chunk (node.py lines 50-71): none models
the 404 branch. -/
def downloadChunk (bl : Blobs) (c : Nat) : Option (List Nat) :=
  alookup c bl

/-- DELETE /chunk/id handler delete_chunk (node.py lines 73-88). -/
def deleteChunk (bl : Blobs) (c : Nat) : Nat × Blobs :=
  if (alookup c bl).isSome then (200, aerase c bl) else (404, bl)

/-- Bytes the node identified by n currently stores for chunk c, read
through the exists/get endpoints; none when the node is unreachable or the
blob is absent. -/
def storeGet (st : Stores) (n : String) (c : Nat) : Option (List Nat) :=
  match alookup n st with
  | none => none
  | some bl => alookup c bl

/-- Helper async_upload_chunk (api5.py lines 519-527 and metadata5.py lines
123-131): POST the bytes to the node and ignore the response entirely; a
connection error (node id absent from the store table) is caught and
logged.  The node-side handler is uploadChunk, so an empty body leaves the
node unchanged. -/
def asyncPut (st : Stores) (n : String) (c : Nat) (data : List Nat) : Stores :=
  match alookup n st with
  | none => st
  | some bl => aupsert n (uploadChunk bl (some c) data).2 st

/-- Whole-system state: metadata server plus the node blob stores. -/
structure Sys where
  meta : Meta
  stores : Stores
deriving DecidableEq

/-- Upload fan-out loop of upload_file (api5.py lines 370-393): walks the
file pieces in order, pairing piece number chunk_index with the registered
chunk id chunks[chunk_index], and fires async_upload_chunk for the
hard-coded replica list ["node1", "node2"]; answers 500 when chunk_index
exceeds the registered chunk list. -/
def uploadLoop : List (List Nat) → List Nat → Stores → Option Stores
  | [], _, st => some st
  | _ :: _, [], _ => none
  | p :: ps, c :: cs, st =>
    uploadLoop ps cs (asyncPut (asyncPut st "node1" c p) "node2" c p)

/-- Chunk splitting performed by the upload loop of upload_file (api5.py
lines 370-373): repeated file.read(CHUNK_SIZE) until it returns empty,
generalised over the read size. -/
def chunksOf (k : Nat) (d : List Nat) : List (List Nat) :=
  if _hkd : k = 0 ∨ d = [] then []
  else d.take k :: chunksOf k (d.drop k)
termination_by d.length
decreasing_by
  push_neg at _hkd
  obtain ⟨hk, hd⟩ := _hkd
  simp only [List.length_drop]
  have hd0 : 0 < d.length := List.length_pos.mpr hd
  omega

/-- POST /upload handler upload_file (api5.py lines 339-405): registers the
path and its byte length with the metadata server, splits the bytes into
CHUNK_SIZE pieces, and fans each piece out to node1 and node2.  The result
is the 500 error code when the piece count exceeds the registered chunks,
otherwise the updated system. -/
def uploadFile (sys : Sys) (path : String) (data : List Nat) (now : Nat) :
    Except Nat Sys :=
  let r := createFile sys.meta path (Int.ofNat data.length) now
  match uploadLoop (chunksOf CHUNK_SIZE data) r.2 sys.stores with
  | none => Except.error 500
  | some st => Except.ok ⟨r.1, st⟩

/-- Per-chunk body of the download loop of download_file (api5.py lines
423-444), returning the bytes fetched for this chunk or a 500 error:
probe chunk_servers[0] with exists and get from it, else fall back to
chunk_servers[1] alone; any other situation is the 500 branch.  An
unreachable node makes requests.get raise, which the handler turns into
the 500 error response as well. -/
def fetchChunk (st : Stores) (cid : Nat) (servers : List String) :
    Except Nat (List Nat) :=
  match servers with
  | [] => Except.error 500
  | p :: rest =>
    match alookup p st with
    | none => Except.error 500
    | some bl =>
      match alookup cid bl with
      | some b => Except.ok b
      | none =>
        match rest with
        | [] => Except.error 500
        | backup :: _ =>
          match alookup backup st with
          | none => Except.error 500
          | some bbl =>
            match alookup cid bbl with
            | some b => Except.ok b
            | none => Except.error 500

/-- Download loop of download_file (api5.py lines 423-444).  The source
initialises file_data = bytearray() INSIDE the per-chunk loop, so the
accumulator is discarded and rebuilt on every iteration; the model carries
the accumulator as an Option that starts as none (the unbound Python
variable) and is replaced, not extended, by each chunk. -/
def downLoop (st : Stores) : List (Nat × List String) → Option (List Nat) →
    Except Nat (Option (List Nat))
  | [], acc => Except.ok acc
  | (cid, servers) :: rest, _ =>
    match fetchChunk st cid servers with
    | Except.error e => Except.error e
    | Except.ok b => downLoop st rest (some b)

/-- GET /download handler download_file (api5.py lines 407-457): 404 when
the metadata server does not know the path; afterwards runs the download
loop and sends file_data.  When no chunk iteration ran (empty chunk list),
file_data was never assigned and the send raises NameError, which the
outer except turns into the 500 response. -/
def downloadFile (sys : Sys) (path : String) : Except Nat (List Nat) :=
  match getFileMetadata sys.meta path with
  | none => Except.error 404
  | some resp =>
    match downLoop sys.stores resp.chunks none with
    | Except.error e => Except.error e
    | Except.ok none => Except.error 500
    | Except.ok (some b) => Except.ok b

/-- Initial system: empty metadata, the three configured nodes reachable
with empty blob stores. -/
def sysEmpty : Sys :=
  ⟨mEmpty, [("node1", []), ("node2", []), ("node3", [])]⟩

/-- Upload-then-download round trip through the gateway on a fresh system
(api5.py upload_file then download_file). -/
def roundTrip (data : List Nat) : Except Nat (List Nat) :=
  match uploadFile sysEmpty "/dfs/f" data 0 with
  | Except.error e => Except.error e
  | Except.ok sys1 => downloadFile sys1 "/dfs/f"

/-- DELETE /api/file observed at system level: the gateway handler
delete_file_web (api5.py lines 478-485) only forwards to the metadata
server's delete_file, and delete_file contacts no storage node, so the
node blob stores are untouched by a delete. -/
def deleteFileSys (sys : Sys) (path : String) : Option (Sys × List Nat) :=
  match deleteFile sys.meta path with
  | none => none
  | some (m2, cids) => some (⟨m2, sys.stores⟩, cids)

/-- Per-replica body of the reconciliation loop (metadata5.py lines
149-172) for chunk cid whose record lists servers: probe exists on nodeId
(an unknown or unreachable node raises, caught and skipped); when the
chunk is missing, pick the first OTHER entry of servers as backup, fetch
the bytes from it and async-upload them to nodeId.  Every failure along
the way is logged and skipped. -/
def healNode (servers : List String) (cid : Nat) (st : Stores)
    (nodeId : String) : Stores :=
  match alookup nodeId st with
  | none => st
  | some bl =>
    if (alookup cid bl).isSome then st
    else
      match servers.find? (fun s => s != nodeId) with
      | none => st
      | some backup =>
        match alookup backup st with
        | none => st
        | some bbl =>
          match alookup cid bbl with
          | none => st
          | some bytes => asyncPut st nodeId cid bytes

/-- Per-chunk body of the reconciliation loop (metadata5.py lines
142-172): look the chunk up in chunk_metadata (a missing record is only
logged), skip records with an empty server list, and probe every server in
order. -/
def healChunk (cm : List (Nat × ChunkInfo)) (st : Stores) (cid : Nat) :
    Stores :=
  match alookup cid cm with
  | none => st
  | some info =>
    if info.chunk_servers = [] then st
    else info.chunk_servers.foldl (healNode info.chunk_servers cid) st

/-- Whole body of one cycle of reconcile_chunks (metadata5.py lines
134-175): iterate over file_to_chunks.items() and over each file's chunk
ids, against the chunk_metadata loaded once at the start of the cycle. -/
def reconcileOnce (sys : Sys) : Sys :=
  ⟨sys.meta,
    sys.meta.file_to_chunks.foldl
      (fun st pr => pr.2.foldl (healChunk sys.meta.chunk_metadata) st)
      sys.stores⟩

theorem chunksOf_nil (k : Nat) : chunksOf k [] = [] := by
  rw [chunksOf]; simp

theorem chunksOf_cons (k : Nat) (d : List Nat) (hk : k ≠ 0) (hd : d ≠ []) :
    chunksOf k d = d.take k :: chunksOf k (d.drop k) := by
  rw [chunksOf]; simp [hk, hd]

theorem chunksOf_length (k : Nat) (hk : 0 < k) (d : List Nat) :
    (chunksOf k d).length = (d.length + k - 1) / k := by
  induction d using chunksOf.induct k with
  | case1 x h =>
    rcases h with h | h
    · exact absurd h (by omega)
    · subst h
      rw [chunksOf_nil]
      simp [Nat.div_eq_of_lt (show k - 1 < k by omega)]
  | case2 x h ih =>
    push_neg at h
    obtain ⟨hk0, hd⟩ := h
    rw [chunksOf_cons k x hk0 hd]
    simp only [List.length_cons, List.length_drop] at ih ⊢
    have hn : 0 < x.length := List.length_pos.mpr hd
    rw [ih]
    have e1 : x.length + k - 1 = (x.length - 1) + k := by omega
    rw [e1, Nat.add_div_right _ hk]
    rcases le_or_lt x.length k with hle | hlt
    · have e2 : x.length - k + k - 1 = k - 1 := by omega
      rw [e2, Nat.div_eq_of_lt (by omega), Nat.div_eq_of_lt (by omega)]
    · have e2 : x.length - k + k - 1 = (x.length - k - 1) + k := by omega
      have e3 : x.length - 1 = (x.length - 1 - k) + k := by omega
      rw [e2, Nat.add_div_right _ hk, e3, Nat.add_div_right _ hk]
      have e4 : x.length - k - 1 = x.length - 1 - k := by omega
      rw [e4]

theorem chunksOf_sizes (k : Nat) (d : List Nat) :
    ∀ c ∈ chunksOf k d, c.length ≤ k := by
  induction d using chunksOf.induct k with
  | case1 x h =>
    rw [chunksOf]
    simp [h]
  | case2 x h ih =>
    push_neg at h
    rw [chunksOf_cons k x h.1 h.2]
    intro c hc
    rcases List.mem_cons.mp hc with rfl | hc2
    · simp
    · exact ih c hc2

theorem chunksOf_full (k : Nat) (hk : 0 < k) (d : List Nat) :
    ∀ i, i + 1 < (chunksOf k d).length →
      ((chunksOf k d).getD i []).length = k := by
  induction d using chunksOf.induct k with
  | case1 x h =>
    intro i hi
    rcases h with h | h
    · exact absurd h (by omega)
    · subst h
      rw [chunksOf_nil] at hi
      simp at hi
  | case2 x h ih =>
    push_neg at h
    obtain ⟨hk0, hd⟩ := h
    intro i hi
    rw [chunksOf_cons k x hk0 hd] at hi ⊢
    cases i with
    | zero =>
      have hne : chunksOf k (x.drop k) ≠ [] := by
        intro hc
        rw [hc] at hi
        simp at hi
      have hdropne : x.drop k ≠ [] := by
        intro hc
        rw [hc, chunksOf_nil] at hne
        exact hne rfl
      have hklt : k < x.length := by
        have hp := List.length_pos.mpr hdropne
        simp only [List.length_drop] at hp
        omega
      simp [List.length_take]
      omega
    | succ j =>
      simp only [List.length_cons] at hi
      have hj := ih j (by omega)
      simpa using hj

/-- C8 (confirmed): the upload path splits a byte sequence of length S into
exactly ceil(S/chunkSize) chunks of at most chunkSize = 4 MiB bytes each,
with every chunk other than the last exactly chunkSize bytes, so only the
last chunk may be shorter. -/
theorem c8_chunking (d : List Nat) :
    (chunksOf CHUNK_SIZE d).length = (d.length + CHUNK_SIZE - 1) / CHUNK_SIZE ∧
    (∀ c ∈ chunksOf CHUNK_SIZE d, c.length ≤ CHUNK_SIZE) ∧
    (∀ i, i + 1 < (chunksOf CHUNK_SIZE d).length →
      ((chunksOf CHUNK_SIZE d).getD i []).length = CHUNK_SIZE) :=
  ⟨chunksOf_length CHUNK_SIZE (by norm_num [CHUNK_SIZE]) d,
   chunksOf_sizes CHUNK_SIZE d,
   chunksOf_full CHUNK_SIZE (by norm_num [CHUNK_SIZE]) d⟩

/-- Witness for C8 at a concrete input of chunkSize + 1 bytes: two chunks,
the first full. -/
theorem c8_chunking_witness :
    (chunksOf CHUNK_SIZE (List.replicate (CHUNK_SIZE + 1) 0)).length = 2 ∧
    ((chunksOf CHUNK_SIZE (List.replicate (CHUNK_SIZE + 1) 0)).getD 0 []).length
      = CHUNK_SIZE := by
  have h := c8_chunking (List.replicate (CHUNK_SIZE + 1) 0)
  have hlen : (chunksOf CHUNK_SIZE (List.replicate (CHUNK_SIZE + 1) 0)).length = 2 := by
    rw [h.1]
    simp only [List.length_replicate]
    decide
  exact ⟨hlen, h.2.2 0 (by rw [hlen]; norm_num)⟩

theorem mem_aupsert {α β : Type} [DecidableEq α] {k : α} {v : β}
    {l : List (α × β)} {e : α × β} (h : e ∈ aupsert k v l) :
    e = (k, v) ∨ e ∈ l := by
  induction l with
  | nil => simp [aupsert] at h; simp [h]
  | cons e2 t ih =>
    obtain ⟨k2, v2⟩ := e2
    by_cases h2 : k2 = k
    · subst h2
      simp only [aupsert, if_pos rfl] at h
      rcases List.mem_cons.mp h with rfl | hm
      · exact Or.inl rfl
      · exact Or.inr (List.mem_cons_of_mem _ hm)
    · simp only [aupsert, if_neg h2] at h
      rcases List.mem_cons.mp h with rfl | hm
      · exact Or.inr (List.mem_cons_self _ _)
      · rcases ih hm with hl | hr
        · exact Or.inl hl
        · exact Or.inr (List.mem_cons_of_mem _ hr)

theorem alookup_foldl_aupsert_const {α β : Type} [DecidableEq α] (v : β)
    (ks : List α) (l : List (α × β)) (c : α) :
    alookup c (ks.foldl (fun acc k => aupsert k v acc) l)
      = if c ∈ ks then some v else alookup c l := by
  induction ks generalizing l with
  | nil => simp
  | cons k t ih =>
    simp only [List.foldl_cons]
    rw [ih]
    by_cases hc : c ∈ t
    · simp [hc]
    · by_cases hk : c = k
      · subst hk
        simp [hc]
      · have hm : ¬ c ∈ k :: t := by simp [hk, hc]
        simp only [hc, if_false, hm]
        rw [alookup_aupsert_ne k c v l (fun h => hk h.symm)]

/-- C4 (confirmed): every chunk generated by create_file is assigned a
replica set of exactly two distinct node identifiers, deterministically
equal to the fixed round-robin pick over the configured node list
(available_nodes[i % len] for i in range(2)); the first assigned node is
recorded as the primary, the version counter starts at 0, and the lease
expiration is now + leaseDuration. -/
theorem c4_placement (m : Meta) (p : String) (s : Int) (t : Nat) (c : Nat)
    (hc : c ∈ (createFile m p s t).2) :
    ∃ info : ChunkInfo,
      alookup c (createFile m p s t).1.chunk_metadata = some info ∧
      info.chunk_servers = assignServers ∧
      info.chunk_servers.length = 2 ∧
      info.chunk_servers.Nodup ∧
      (∀ n ∈ info.chunk_servers, n ∈ NODE_IDS) ∧
      info.primary = info.chunk_servers.getD 0 "" ∧
      info.primary ∈ info.chunk_servers ∧
      info.version = 0 ∧
      info.lease_expiration = t + LEASE_DURATION := by
  refine ⟨mkChunkInfo t, ?_, rfl, ?_, ?_, ?_, rfl, ?_, rfl, rfl⟩
  · simp only [createFile] at hc ⊢
    rw [alookup_foldl_aupsert_const]
    simp [hc]
  · show assignServers.length = 2
    decide
  · show assignServers.Nodup
    decide
  · show ∀ n ∈ assignServers, n ∈ NODE_IDS
    decide
  · show assignServers.getD 0 "" ∈ assignServers
    decide

/-- Witness for C4: the single chunk of a one-byte file on the fresh
metadata state. -/
theorem c4_placement_witness :
    ∃ info : ChunkInfo,
      alookup 0 (createFile mEmpty "/a" 1 0).1.chunk_metadata = some info ∧
      info.chunk_servers = assignServers ∧
      info.chunk_servers.length = 2 ∧
      info.chunk_servers.Nodup ∧
      (∀ n ∈ info.chunk_servers, n ∈ NODE_IDS) ∧
      info.primary = info.chunk_servers.getD 0 "" ∧
      info.primary ∈ info.chunk_servers ∧
      info.version = 0 ∧
      info.lease_expiration = 0 + LEASE_DURATION :=
  c4_placement mEmpty "/a" 1 0 0 (by decide)

/-- C5 (corrected) counterexample: create_file performs no size validation
at all: called with size = -1 on the empty state it answers its normal
success response with an empty chunk list and registers the path as an
empty file, instead of failing with InvalidArgument as claimed. -/
theorem c5_no_validation_cex :
    (createFile mEmpty "/a" (-1) 0).2 = [] ∧
    alookup "/a" (createFile mEmpty "/a" (-1) 0).1.file_to_chunks = some [] := by
  decide

/-- C5 (amended, proved): create_file never fails; a size below 0 is
treated like size 0 and yields a registered, valid empty file with zero
chunks, and for size ≥ 0 the number of generated chunk identifiers equals
ceil(size/chunkSize). -/
theorem c5_size_semantics (m : Meta) (p : String) (s : Int) (t : Nat) :
    (s ≤ 0 → (createFile m p s t).2 = [] ∧
      alookup p (createFile m p s t).1.file_to_chunks = some []) ∧
    (0 ≤ s → ((createFile m p s t).2).length
      = (s.toNat + CHUNK_SIZE - 1) / CHUNK_SIZE) := by
  have hcast : ((CHUNK_SIZE : Int)) = 4194304 := by norm_num [CHUNK_SIZE]
  constructor
  · intro hs
    have hcnt : ((s + (CHUNK_SIZE : Int) - 1).fdiv CHUNK_SIZE).toNat = 0 := by
      rw [Int.fdiv_eq_ediv _ (by rw [hcast]; norm_num), hcast]
      omega
    constructor
    · simp [createFile, hcnt]
    · simp [createFile, hcnt]
  · intro hs
    simp only [createFile, List.length_map, List.length_range]
    rw [Int.fdiv_eq_ediv _ (by rw [hcast]; norm_num), hcast]
    simp only [CHUNK_SIZE]
    omega

/-- Witness for C5 at size -2 (zero chunks, registered empty file) and at
the spec scenario size 9000000 (three chunks). -/
theorem c5_size_semantics_witness :
    (createFile mEmpty "/a" (-2) 0).2 = [] ∧
    alookup "/a" (createFile mEmpty "/a" (-2) 0).1.file_to_chunks = some [] ∧
    ((createFile mEmpty "/b" 9000000 0).2).length = 3 := by
  have h1 := (c5_size_semantics mEmpty "/a" (-2) 0).1 (by norm_num)
  have h2 := (c5_size_semantics mEmpty "/b" 9000000 0).2 (by norm_num)
  refine ⟨h1.1, h1.2, ?_⟩
  rw [h2]
  decide

/-- C7 (corrected) counterexample: a file registered with size 1 is
reported by get_file_metadata with size field 0, not 1. -/
theorem c7_size_zero_cex :
    (getFileMetadata (createFile mEmpty "/a" 1 0).1 "/a").map FileResp.size
      = some 0 ∧
    (getFileMetadata (createFile mEmpty "/a" 1 0).1 "/a").map FileResp.size
      ≠ some 1 := by
  decide

/-- C7 (amended, proved): get_file_metadata succeeds on every registered
path, but its size field is always the hard-coded placeholder 0, never the
file's registered byte size. -/
theorem c7_size_placeholder (m : Meta) (p : String) (cids : List Nat)
    (h : alookup p m.file_to_chunks = some cids) :
    ∃ r, getFileMetadata m p = some r ∧ r.size = 0 := by
  unfold getFileMetadata
  rw [h]
  exact ⟨_, rfl, rfl⟩

/-- Witness for C7 on the one-chunk file registered at path "/a". -/
theorem c7_size_placeholder_witness :
    ∃ r, getFileMetadata (createFile mEmpty "/a" 1 0).1 "/a" = some r ∧
      r.size = 0 :=
  c7_size_placeholder _ "/a" [0] (by decide)

/-- C10 (confirmed): the node chunk store rejects an empty body with a 400
error and leaves its blobs untouched, and consequently a store whose blobs
are all nonempty can never come to hold an empty blob through Put. -/
theorem c10_put_rejects_empty (bl : Blobs) (cid : Option Nat) :
    uploadChunk bl cid [] = (400, bl) ∧
    ∀ data : List Nat, (∀ e ∈ bl, e.2 ≠ ([] : List Nat)) →
      ∀ e ∈ (uploadChunk bl cid data).2, e.2 ≠ ([] : List Nat) := by
  constructor
  · cases cid with
    | none => rfl
    | some c => simp [uploadChunk]
  · intro data hbl e he
    cases cid with
    | none =>
      simp only [uploadChunk] at he
      exact hbl e he
    | some c =>
      by_cases hd : data = []
      · subst hd
        simp only [uploadChunk, if_pos rfl] at he
        exact hbl e he
      · simp only [uploadChunk, if_neg hd] at he
        rcases mem_aupsert he with rfl | hm
        · exact hd
        · exact hbl e hm

/-- Witness for C10 on a store holding one nonempty blob. -/
theorem c10_put_rejects_empty_witness :
    uploadChunk [(0, [1])] (some 1) [] = (400, [(0, [1])]) ∧
    ∀ e ∈ (uploadChunk [(0, [1])] (some 1) [5]).2, e.2 ≠ ([] : List Nat) := by
  have h := c10_put_rejects_empty [(0, [1])] (some 1)
  exact ⟨h.1, h.2 [5] (by decide)⟩

/-- C6 (corrected) counterexample: renaming a registered path onto ITSELF
succeeds but removes the entry entirely (the source inserts
file_to_chunks[new_path] and then dels file_to_chunks[old_path], which is
the same key), so afterwards the new path resolves to NotFound instead of
carrying the old chunk sequence. -/
theorem c6_rename_same_path_cex :
    (renameFile (createFile mEmpty "/a" 1 0).1 "/a" "/a").isSome = true ∧
    Option.bind (renameFile (createFile mEmpty "/a" 1 0).1 "/a" "/a")
      (fun m2 => getFileMetadata m2 "/a") = none := by
  decide

/-- C6 (amended, proved): for every oldPath present in the namespace and
every newPath DIFFERENT from oldPath, rename succeeds, the chunk sequence
stored at newPath afterwards equals the sequence previously stored at
oldPath with chunk_metadata untouched (so the new path reads the same
bytes), and the old path resolves to NotFound; renaming an absent oldPath
fails with NotFound.  Renaming a path onto itself instead drops the entry. -/
theorem c6_rename_semantics (m : Meta) (o n : String) :
    (∀ cids, alookup o m.file_to_chunks = some cids → o ≠ n →
      ∃ m2, renameFile m o n = some m2 ∧
        alookup n m2.file_to_chunks = some cids ∧
        alookup o m2.file_to_chunks = none ∧
        getFileMetadata m2 o = none ∧
        m2.chunk_metadata = m.chunk_metadata) ∧
    (alookup o m.file_to_chunks = none → renameFile m o n = none) := by
  constructor
  · intro cids h hne
    refine ⟨{ m with
      file_to_chunks := aerase o (aupsert n cids m.file_to_chunks) },
      ?_, ?_, ?_, ?_, rfl⟩
    · simp [renameFile, h]
    · show alookup n (aerase o (aupsert n cids m.file_to_chunks)) = some cids
      rw [alookup_aerase_ne o n _ (fun hh => hne hh.symm)]
      exact alookup_aupsert_self n cids m.file_to_chunks
    · exact alookup_aerase_self o _
    · simp [getFileMetadata, alookup_aerase_self]
  · intro h
    simp [renameFile, h]

/-- Witness for C6: renaming the one-chunk file "/a" to "/b". -/
theorem c6_rename_semantics_witness :
    ∃ m2, renameFile (createFile mEmpty "/a" 1 0).1 "/a" "/b" = some m2 ∧
      alookup "/b" m2.file_to_chunks = some [0] ∧
      alookup "/a" m2.file_to_chunks = none ∧
      getFileMetadata m2 "/a" = none ∧
      m2.chunk_metadata = (createFile mEmpty "/a" 1 0).1.chunk_metadata :=
  (c6_rename_semantics (createFile mEmpty "/a" 1 0).1 "/a" "/b").1 [0]
    (by decide) (by decide)

theorem alookup_purgeChunks_none (cids : List Nat) :
    ∀ (cm : List (Nat × ChunkInfo)) (c : Nat), alookup c cm = none →
      alookup c (purgeChunks cm cids) = none := by
  induction cids with
  | nil =>
    intro cm c h
    simpa [purgeChunks] using h
  | cons d t ih =>
    intro cm c h
    simp only [purgeChunks, List.foldl_cons]
    apply ih
    by_cases hd : (alookup d cm).isSome = true
    · simp only [hd, if_true]
      rw [alookup_aerase]
      split
      · rfl
      · exact h
    · simp only [hd, if_false]
      exact h

theorem alookup_purgeChunks_mem (cids : List Nat) :
    ∀ (cm : List (Nat × ChunkInfo)) (c : Nat), c ∈ cids →
      alookup c (purgeChunks cm cids) = none := by
  induction cids with
  | nil =>
    intro cm c hc
    simp at hc
  | cons d t ih =>
    intro cm c hc
    simp only [purgeChunks, List.foldl_cons]
    by_cases hcd : c = d
    · subst hcd
      have hstep : alookup c (if (alookup c cm).isSome then aerase c cm else cm)
          = none := by
        by_cases hd : (alookup c cm).isSome = true
        · simp only [hd, if_true]
          exact alookup_aerase_self c cm
        · simp only [hd, if_false]
          exact Option.not_isSome_iff_eq_none.mp (by simpa using hd)
      exact alookup_purgeChunks_none t _ c hstep
    · rcases List.mem_cons.mp hc with h | h
      · exact absurd h hcd
      · exact ih _ c h

/-- Initial system for the C2 counterexample: one file "/a" of one chunk
with id 0, its bytes replicated on node1 and node2;
the state reached by uploading a one-byte file on a fresh system. -/
def sysD : Sys :=
  ⟨⟨[("/a", [0])], [(0, mkChunkInfo 0)], 1⟩,
   [("node1", [(0, [7])]), ("node2", [(0, [7])]), ("node3", [])]⟩

/-- C2 (corrected) counterexample: delete_file succeeds, yet the chunk
blob is still present on both replica nodes afterwards: no node-level
Delete is ever issued (delete_file performs no HTTP call; per node.py
delete_chunk an issued delete would have removed the blob). -/
theorem c2_no_node_delete_cex :
    (deleteFileSys sysD "/a").isSome = true ∧
    Option.bind (deleteFileSys sysD "/a")
      (fun r => storeGet r.1.stores "node1" 0) = some [7] ∧
    Option.bind (deleteFileSys sysD "/a")
      (fun r => storeGet r.1.stores "node2" 0) = some [7] := by
  decide

/-- C2 (amended, proved): DeleteFile of a present path removes its
FileEntry and all its ChunkRecords, afterwards GetFile on the path returns
NotFound, and DeleteFile of an absent path fails with NotFound; however no
node-level Delete is issued to any replica, so every node blob store is
left exactly unchanged and the chunk blobs are orphaned. -/
theorem c2_delete_cascades (sys : Sys) (path : String) :
    (∀ cids, alookup path sys.meta.file_to_chunks = some cids →
      ∃ sys2, deleteFileSys sys path = some (sys2, cids) ∧
        getFileMetadata sys2.meta path = none ∧
        (∀ c ∈ cids, alookup c sys2.meta.chunk_metadata = none) ∧
        sys2.stores = sys.stores) ∧
    (alookup path sys.meta.file_to_chunks = none →
      deleteFileSys sys path = none) := by
  constructor
  · intro cids h
    refine ⟨⟨{ sys.meta with
        file_to_chunks := aerase path sys.meta.file_to_chunks,
        chunk_metadata := purgeChunks sys.meta.chunk_metadata cids },
      sys.stores⟩, ?_, ?_, ?_, rfl⟩
    · simp [deleteFileSys, deleteFile, h]
    · simp [getFileMetadata, alookup_aerase_self]
    · intro c hc
      exact alookup_purgeChunks_mem cids _ c hc
  · intro h
    simp [deleteFileSys, deleteFile, h]

/-- Witness for C2 on the concrete one-file system sysD. -/
theorem c2_delete_cascades_witness :
    ∃ sys2, deleteFileSys sysD "/a" = some (sys2, [0]) ∧
      getFileMetadata sys2.meta "/a" = none ∧
      (∀ c ∈ [0], alookup c sys2.meta.chunk_metadata = none) ∧
      sys2.stores = sysD.stores :=
  (c2_delete_cascades sysD "/a").1 [0] (by decide)

/-- System holding a correctly uploaded two-chunk file at "/t": chunk 0
has bytes [1] and chunk 1 has bytes [2] on both assigned replicas (chunk
payload sizes are irrelevant to the download path, which never inspects
lengths). -/
def sysT : Sys :=
  ⟨⟨[("/t", [0, 1])], [(0, mkChunkInfo 0), (1, mkChunkInfo 0)], 2⟩,
   [("node1", [(0, [1]), (1, [2])]),
    ("node2", [(0, [1]), (1, [2])]),
    ("node3", [])]⟩

/-- C1 (code_bug): the upload-then-download round trip does NOT return the
original bytes.  download_file initialises file_data = bytearray() inside
the per-chunk loop (api5.py line 427; every earlier generation initialises
it before the loop), so (1) downloading an uploaded empty file answers the
500 error (file_data is never assigned, NameError), and (2) downloading a
multi-chunk file returns only the LAST chunk's bytes: on sysT, whose file
is the concatenation [1] ++ [2], the download returns [2]. -/
theorem c1_round_trip_bug :
    roundTrip [] = Except.error 500 ∧
    downloadFile sysT "/t" = Except.ok [2] ∧
    ([1] ++ [2] : List Nat) ≠ [2] := by
  refine ⟨?_, by decide, by decide⟩
  have hup : uploadFile sysEmpty "/dfs/f" [] 0
      = Except.ok ⟨(createFile mEmpty "/dfs/f" 0 0).1, sysEmpty.stores⟩ := by
    simp only [uploadFile, chunksOf_nil]
    rfl
  unfold roundTrip
  rw [hup]
  decide

/-- Metadata states reachable from the empty store by any sequence of
create_file, rename_file and delete_file calls (the three mutating
handlers of metadata5.py). -/
inductive Reachable : Meta → Prop
  | empty : Reachable mEmpty
  | create (m : Meta) (p : String) (s : Int) (t : Nat) :
      Reachable m → Reachable (createFile m p s t).1
  | rename (m : Meta) (o n : String) (m2 : Meta) :
      Reachable m → renameFile m o n = some m2 → Reachable m2
  | delete (m : Meta) (p : String) (m2 : Meta) (cs : List Nat) :
      Reachable m → deleteFile m p = some (m2, cs) → Reachable m2

/-- Invariant claimed for every ChunkRecord: replica set within the known
node set, primary a member of the replica set, and each chunk identifier
in the chunk sequence of at most one FileEntry. -/
def ChunkRecordInv (m : Meta) : Prop :=
  (∀ c info, alookup c m.chunk_metadata = some info →
    (∀ s ∈ info.chunk_servers, s ∈ NODE_IDS) ∧
    info.primary ∈ info.chunk_servers) ∧
  (∀ p1 p2 l1 l2, p1 ≠ p2 → alookup p1 m.file_to_chunks = some l1 →
    alookup p2 m.file_to_chunks = some l2 → ∀ c ∈ l1, c ∉ l2)

/-- Auxiliary freshness bound: every chunk id referenced by the namespace
is below the uuid-freshness counter. -/
def MetaBound (m : Meta) : Prop :=
  ∀ p l, alookup p m.file_to_chunks = some l → ∀ c ∈ l, c < m.nextId

theorem alookup_purgeChunks_some (cids : List Nat) :
    ∀ (cm : List (Nat × ChunkInfo)) (c : Nat) (info : ChunkInfo),
      alookup c (purgeChunks cm cids) = some info →
      alookup c cm = some info := by
  induction cids with
  | nil =>
    intro cm c info h
    simpa [purgeChunks] using h
  | cons d t ih =>
    intro cm c info h
    simp only [purgeChunks, List.foldl_cons] at h
    have hstep := ih _ c info h
    by_cases hd : (alookup d cm).isSome = true
    · simp only [hd, if_true] at hstep
      rw [alookup_aerase] at hstep
      by_cases hcd : c = d
      · simp [hcd] at hstep
      · simpa [hcd] using hstep
    · simpa [hd] using hstep

theorem createFile_char (m : Meta) (p : String) (s : Int) (t : Nat) :
    (createFile m p s t).1.file_to_chunks
      = aupsert p (createFile m p s t).2 m.file_to_chunks ∧
    (createFile m p s t).1.chunk_metadata
      = (createFile m p s t).2.foldl
          (fun cm2 cid => aupsert cid (mkChunkInfo t) cm2) m.chunk_metadata ∧
    (∀ c ∈ (createFile m p s t).2,
      m.nextId ≤ c ∧ c < (createFile m p s t).1.nextId) ∧
    m.nextId ≤ (createFile m p s t).1.nextId := by
  refine ⟨rfl, rfl, ?_, ?_⟩
  · intro c hc
    simp only [createFile, List.mem_map, List.mem_range] at hc ⊢
    obtain ⟨i, hi, rfl⟩ := hc
    omega
  · simp only [createFile]
    omega

theorem metaInv_create (m : Meta) (p : String) (s : Int) (t : Nat)
    (h : ChunkRecordInv m ∧ MetaBound m) :
    ChunkRecordInv (createFile m p s t).1 ∧ MetaBound (createFile m p s t).1 := by
  obtain ⟨⟨hrec, hdisj⟩, hbound⟩ := h
  obtain ⟨hf2c, hcm, hmem, hmono⟩ := createFile_char m p s t
  refine ⟨⟨?_, ?_⟩, ?_⟩
  · intro c info hlook
    rw [hcm, alookup_foldl_aupsert_const] at hlook
    by_cases hc : c ∈ (createFile m p s t).2
    · rw [if_pos hc] at hlook
      cases hlook
      constructor
      · show ∀ x ∈ assignServers, x ∈ NODE_IDS
        decide
      · show assignServers.getD 0 "" ∈ assignServers
        decide
    · rw [if_neg hc] at hlook
      exact hrec c info hlook
  · intro p1 p2 l1 l2 hne h1 h2 c hc
    rw [hf2c, alookup_aupsert] at h1 h2
    by_cases hp1 : p = p1
    · rw [if_pos hp1] at h1
      have hl1 : l1 = (createFile m p s t).2 := (Option.some.inj h1).symm
      subst hl1
      have hp2 : ¬ p = p2 := fun hh => hne (hp1 ▸ hh ▸ rfl)
      rw [if_neg hp2] at h2
      intro hc2
      have hlow := hbound p2 l2 h2 c hc2
      have hhigh := (hmem c hc).1
      omega
    · rw [if_neg hp1] at h1
      by_cases hp2 : p = p2
      · rw [if_pos hp2] at h2
        have hl2 : l2 = (createFile m p s t).2 := (Option.some.inj h2).symm
        subst hl2
        intro hc2
        have hlow := hbound p1 l1 h1 c hc
        have hhigh := (hmem c hc2).1
        omega
      · rw [if_neg hp2] at h2
        exact hdisj p1 p2 l1 l2 hne h1 h2 c hc
  · intro q l hlook c hc
    rw [hf2c, alookup_aupsert] at hlook
    by_cases hq : p = q
    · rw [if_pos hq] at hlook
      have hl : l = (createFile m p s t).2 := (Option.some.inj hlook).symm
      subst hl
      exact (hmem c hc).2
    · rw [if_neg hq] at hlook
      have := hbound q l hlook c hc
      omega

theorem metaInv_rename (m : Meta) (o n : String) (m2 : Meta)
    (h : ChunkRecordInv m ∧ MetaBound m) (hr : renameFile m o n = some m2) :
    ChunkRecordInv m2 ∧ MetaBound m2 := by
  obtain ⟨⟨hrec, hdisj⟩, hbound⟩ := h
  unfold renameFile at hr
  cases hcids : alookup o m.file_to_chunks with
  | none => rw [hcids] at hr; cases hr
  | some cids =>
    rw [hcids] at hr
    have hm2 : m2 = { m with
        file_to_chunks := aerase o (aupsert n cids m.file_to_chunks) } :=
      (Option.some.inj hr).symm
    subst hm2
    have hchar : ∀ q, alookup q (aerase o (aupsert n cids m.file_to_chunks))
        = if q = o then none
          else if n = q then some cids else alookup q m.file_to_chunks := by
      intro q
      rw [alookup_aerase, alookup_aupsert]
    refine ⟨⟨hrec, ?_⟩, ?_⟩
    · intro p1 p2 l1 l2 hne h1 h2 c hc
      rw [hchar] at h1 h2
      by_cases h1o : p1 = o
      · rw [if_pos h1o] at h1; cases h1
      · rw [if_neg h1o] at h1
        by_cases h2o : p2 = o
        · rw [if_pos h2o] at h2; cases h2
        · rw [if_neg h2o] at h2
          by_cases h1n : n = p1
          · rw [if_pos h1n] at h1
            have hl1 : l1 = cids := (Option.some.inj h1).symm
            subst hl1
            have h2n : ¬ n = p2 := fun hh => hne (h1n ▸ hh ▸ rfl)
            rw [if_neg h2n] at h2
            have ho2 : o ≠ p2 := fun hh => h2o hh.symm
            exact hdisj o p2 l1 l2 ho2 hcids h2 c hc
          · rw [if_neg h1n] at h1
            by_cases h2n : n = p2
            · rw [if_pos h2n] at h2
              have hl2 : l2 = cids := (Option.some.inj h2).symm
              subst hl2
              intro hc2
              exact hdisj o p1 l2 l1 (fun hh => h1o hh.symm) hcids h1 c hc2 hc
            · rw [if_neg h2n] at h2
              exact hdisj p1 p2 l1 l2 hne h1 h2 c hc
    · intro q l hlook c hc
      rw [hchar] at hlook
      by_cases hqo : q = o
      · rw [if_pos hqo] at hlook; cases hlook
      · rw [if_neg hqo] at hlook
        by_cases hqn : n = q
        · rw [if_pos hqn] at hlook
          have hl : l = cids := (Option.some.inj hlook).symm
          subst hl
          exact hbound o l hcids c hc
        · rw [if_neg hqn] at hlook
          exact hbound q l hlook c hc

theorem metaInv_delete (m : Meta) (p : String) (m2 : Meta) (cs : List Nat)
    (h : ChunkRecordInv m ∧ MetaBound m) (hd : deleteFile m p = some (m2, cs)) :
    ChunkRecordInv m2 ∧ MetaBound m2 := by
  obtain ⟨⟨hrec, hdisj⟩, hbound⟩ := h
  unfold deleteFile at hd
  cases hcids : alookup p m.file_to_chunks with
  | none => rw [hcids] at hd; cases hd
  | some cids =>
    rw [hcids] at hd
    have hpair := Option.some.inj hd
    have hm2 : m2 = { m with
        file_to_chunks := aerase p m.file_to_chunks,
        chunk_metadata := purgeChunks m.chunk_metadata cids } :=
      (congrArg Prod.fst hpair).symm
    subst hm2
    refine ⟨⟨?_, ?_⟩, ?_⟩
    · intro c info hlook
      exact hrec c info (alookup_purgeChunks_some cids _ c info hlook)
    · intro p1 p2 l1 l2 hne h1 h2 c hc
      rw [alookup_aerase] at h1 h2
      by_cases h1p : p1 = p
      · rw [if_pos h1p] at h1; cases h1
      · rw [if_neg h1p] at h1
        by_cases h2p : p2 = p
        · rw [if_pos h2p] at h2; cases h2
        · rw [if_neg h2p] at h2
          exact hdisj p1 p2 l1 l2 hne h1 h2 c hc
    · intro q l hlook c hc
      rw [alookup_aerase] at hlook
      by_cases hqp : q = p
      · rw [if_pos hqp] at hlook; cases hlook
      · rw [if_neg hqp] at hlook
        exact hbound q l hlook c hc

theorem metaInv_reachable (m : Meta) (h : Reachable m) :
    ChunkRecordInv m ∧ MetaBound m := by
  induction h with
  | empty =>
    refine ⟨⟨?_, ?_⟩, ?_⟩
    · intro c info hlook; cases hlook
    · intro p1 p2 l1 l2 hne h1 h2; cases h1
    · intro q l hlook; cases hlook
  | create m p s t _ ih => exact metaInv_create m p s t ih
  | rename m o n m2 _ hr ih => exact metaInv_rename m o n m2 ih hr
  | delete m p m2 cs _ hd ih => exact metaInv_delete m p m2 cs ih hd

/-- C9 (confirmed): in every metadata state reachable from the empty state
by CreateFile, RenameFile and DeleteFile, every ChunkRecord has its
replica set inside the known node set and its primary inside its replica
set, and each chunk identifier appears in the chunk sequence of at most
one FileEntry. -/
theorem c9_chunk_record_invariant (m : Meta) (h : Reachable m) :
    ChunkRecordInv m :=
  (metaInv_reachable m h).1

/-- Witness for C9 at the state reached by one create on the empty
store. -/
theorem c9_chunk_record_invariant_witness :
    ChunkRecordInv (createFile mEmpty "/a" 1 0).1 :=
  c9_chunk_record_invariant _ (Reachable.create mEmpty "/a" 1 0 Reachable.empty)

/-- System for the C3 counterexample: a ChunkRecord for chunk 0 with
replica set [node1, node2] whose bytes are present on node2 and absent on
node1, but no FileEntry references chunk 0 (the state left behind by
create_file overwriting a path, which orphans the old records). -/
def sysR : Sys :=
  ⟨⟨[], [(0, mkChunkInfo 0)], 1⟩,
   [("node1", []), ("node2", [(0, [7])]), ("node3", [])]⟩

/-- C3 (corrected) counterexample: the reconciler iterates over
file_to_chunks.items() only, so a ChunkRecord not referenced by any
FileEntry is never probed: on sysR one full cycle changes nothing and
node1 still lacks chunk 0 afterwards, though node2 holds its bytes. -/
theorem c3_orphan_record_cex :
    reconcileOnce sysR = sysR ∧
    storeGet (reconcileOnce sysR).stores "node1" 0 = none ∧
    alookup 0 sysR.meta.chunk_metadata
      = some ⟨["node1", "node2"], 0, "node1", 60⟩ ∧
    storeGet sysR.stores "node2" 0 = some [7] := by
  refine ⟨rfl, rfl, ?_, rfl⟩
  decide

/-- Repair target: both replica nodes hold the chunk bytes. -/
def Good (st : Stores) (A B : String) (c : Nat) (bytes : List Nat) : Prop :=
  storeGet st A c = some bytes ∧ storeGet st B c = some bytes

/-- Degraded state: node A is reachable but lacks the chunk, node B holds
the bytes. -/
def Half (st : Stores) (A B : String) (c : Nat) (bytes : List Nat) : Prop :=
  (alookup A st).isSome = true ∧ storeGet st A c = none ∧
    storeGet st B c = some bytes

theorem storeGet_some_lookup (st : Stores) (n : String) (c : Nat)
    (bl : Blobs) (h : alookup n st = some bl) :
    storeGet st n c = alookup c bl := by
  unfold storeGet
  rw [h]

theorem storeGet_none_lookup (st : Stores) (n : String) (c : Nat)
    (h : alookup n st = none) : storeGet st n c = none := by
  unfold storeGet
  rw [h]

theorem asyncPut_none (st : Stores) (n : String) (cid : Nat) (d : List Nat)
    (h : alookup n st = none) : asyncPut st n cid d = st := by
  unfold asyncPut
  rw [h]

theorem asyncPut_some (st : Stores) (n : String) (cid : Nat) (d : List Nat)
    (bl : Blobs) (h : alookup n st = some bl) :
    asyncPut st n cid d = aupsert n (uploadChunk bl (some cid) d).2 st := by
  unfold asyncPut
  rw [h]

theorem uploadChunk_snd_nil (bl : Blobs) (c : Nat) :
    (uploadChunk bl (some c) []).2 = bl := by
  simp [uploadChunk]

theorem uploadChunk_snd_ne (bl : Blobs) (c : Nat) (d : List Nat)
    (hd : d ≠ []) : (uploadChunk bl (some c) d).2 = aupsert c d bl := by
  simp [uploadChunk, hd]

theorem asyncPut_other_chunk (st : Stores) (n : String) (cid : Nat)
    (d : List Nat) (n2 : String) (c2 : Nat) (hc : c2 ≠ cid) :
    storeGet (asyncPut st n cid d) n2 c2 = storeGet st n2 c2 := by
  cases h1 : alookup n st with
  | none => rw [asyncPut_none st n cid d h1]
  | some bl =>
    rw [asyncPut_some st n cid d bl h1]
    by_cases hn : n = n2
    · subst hn
      rw [storeGet_some_lookup _ n c2 _ (alookup_aupsert_self n _ st),
        storeGet_some_lookup st n c2 bl h1]
      by_cases hd : d = []
      · rw [hd, uploadChunk_snd_nil]
      · rw [uploadChunk_snd_ne bl cid d hd,
          alookup_aupsert_ne cid c2 d bl (fun hh => hc hh.symm)]
    · unfold storeGet
      rw [alookup_aupsert_ne n n2 _ st hn]

theorem asyncPut_other_node (st : Stores) (n : String) (cid : Nat)
    (d : List Nat) (n2 : String) (c2 : Nat) (hn : n2 ≠ n) :
    storeGet (asyncPut st n cid d) n2 c2 = storeGet st n2 c2 := by
  cases h1 : alookup n st with
  | none => rw [asyncPut_none st n cid d h1]
  | some bl =>
    rw [asyncPut_some st n cid d bl h1]
    unfold storeGet
    rw [alookup_aupsert_ne n n2 _ st (fun hh => hn hh.symm)]

theorem asyncPut_self (st : Stores) (n : String) (cid : Nat) (d : List Nat)
    (bl : Blobs) (h1 : alookup n st = some bl) (hd : d ≠ []) :
    storeGet (asyncPut st n cid d) n cid = some d := by
  rw [asyncPut_some st n cid d bl h1,
    storeGet_some_lookup _ n cid _ (alookup_aupsert_self n _ st),
    uploadChunk_snd_ne bl cid d hd]
  exact alookup_aupsert_self cid d bl

theorem asyncPut_pres (st : Stores) (n : String) (cid : Nat) (d : List Nat)
    (n2 : String) (hp : (alookup n2 st).isSome = true) :
    (alookup n2 (asyncPut st n cid d)).isSome = true := by
  cases h1 : alookup n st with
  | none =>
    rw [asyncPut_none st n cid d h1]
    exact hp
  | some bl =>
    rw [asyncPut_some st n cid d bl h1, alookup_aupsert]
    by_cases hn : n = n2
    · rw [if_pos hn]
      rfl
    · rw [if_neg hn]
      exact hp

theorem healNode_cases (sv : List String) (cid : Nat) (st : Stores)
    (nd : String) :
    healNode sv cid st nd = st ∨
    ∃ b, healNode sv cid st nd = asyncPut st nd cid b := by
  unfold healNode
  split
  · exact Or.inl rfl
  · split
    · exact Or.inl rfl
    · split
      · exact Or.inl rfl
      · split
        · exact Or.inl rfl
        · split
          · exact Or.inl rfl
          · exact Or.inr ⟨_, rfl⟩

theorem healNode_other_chunk (sv : List String) (cid : Nat) (st : Stores)
    (nd : String) (n2 : String) (c2 : Nat) (hc : c2 ≠ cid) :
    storeGet (healNode sv cid st nd) n2 c2 = storeGet st n2 c2 := by
  rcases healNode_cases sv cid st nd with h | ⟨b, h⟩ <;> rw [h]
  exact asyncPut_other_chunk st nd cid b n2 c2 hc

theorem healNode_pres (sv : List String) (cid : Nat) (st : Stores)
    (nd : String) (n2 : String) (hp : (alookup n2 st).isSome = true) :
    (alookup n2 (healNode sv cid st nd)).isSome = true := by
  rcases healNode_cases sv cid st nd with h | ⟨b, h⟩ <;> rw [h]
  · exact hp
  · exact asyncPut_pres st nd cid b n2 hp

theorem find_other (sv : List String) (A B : String) (hAB : A ≠ B)
    (hBin : B ∈ sv) (hall : ∀ x ∈ sv, x = A ∨ x = B) :
    sv.find? (fun s => s != A) = some B := by
  induction sv with
  | nil => cases hBin
  | cons x t ih =>
    rcases hall x (List.mem_cons_self x t) with rfl | rfl
    · have hBt : B ∈ t := by
        rcases List.mem_cons.mp hBin with h | h
        · exact absurd h.symm hAB
        · exact h
      rw [List.find?_cons_of_neg _ (by simp)]
      exact ih hBt (fun y hy => hall y (List.mem_cons_of_mem _ hy))
    · exact List.find?_cons_of_pos _ (by simp [bne_iff_ne]; exact fun hh => hAB hh.symm)

theorem storeGet_some_elim {st : Stores} {n : String} {c : Nat}
    {bytes : List Nat} (h : storeGet st n c = some bytes) :
    ∃ bl, alookup n st = some bl ∧ alookup c bl = some bytes := by
  unfold storeGet at h
  cases h1 : alookup n st with
  | none => rw [h1] at h; cases h
  | some bl =>
    rw [h1] at h
    exact ⟨bl, rfl, h⟩

theorem healNode_repair (sv : List String) (c : Nat) (st : Stores)
    (A B : String) (bytes : List Nat) (hAB : A ≠ B) (hBin : B ∈ sv)
    (hall : ∀ x ∈ sv, x = A ∨ x = B) (hbytes : bytes ≠ [])
    (hhalf : Half st A B c bytes) :
    Good (healNode sv c st A) A B c bytes := by
  obtain ⟨hApres, hAmiss, hB⟩ := hhalf
  obtain ⟨abl, hA, hcA⟩ : ∃ abl, alookup A st = some abl ∧
      alookup c abl = none := by
    cases h1 : alookup A st with
    | none => rw [h1] at hApres; cases hApres
    | some abl =>
      refine ⟨abl, rfl, ?_⟩
      rw [storeGet_some_lookup st A c abl h1] at hAmiss
      exact hAmiss
  obtain ⟨bbl, hBst, hcB⟩ := storeGet_some_elim hB
  have hheal : healNode sv c st A = asyncPut st A c bytes := by
    simp only [healNode, hA, hcA, Option.isSome_none, Bool.false_eq_true,
      if_false, find_other sv A B hAB hBin hall, hBst, hcB]
  rw [hheal]
  exact ⟨asyncPut_self st A c bytes abl hA hbytes,
    by rw [asyncPut_other_node st A c bytes B c hAB.symm]; exact hB⟩

theorem healNode_skip_present (sv : List String) (c : Nat) (st : Stores)
    (nd : String) (bytes : List Nat) (h : storeGet st nd c = some bytes) :
    healNode sv c st nd = st := by
  obtain ⟨bl, hnd, hcb⟩ := storeGet_some_elim h
  simp only [healNode, hnd, hcb, Option.isSome_some, if_true]

theorem fold_healNode_other (full : List String) (cid : Nat)
    (sv : List String) :
    ∀ (st : Stores) (n2 : String) (c2 : Nat), c2 ≠ cid →
      storeGet (sv.foldl (healNode full cid) st) n2 c2 = storeGet st n2 c2 := by
  induction sv with
  | nil => intro st n2 c2 hc; rfl
  | cons x t ih =>
    intro st n2 c2 hc
    simp only [List.foldl_cons]
    rw [ih _ n2 c2 hc, healNode_other_chunk full cid st x n2 c2 hc]

theorem fold_healNode_pres (full : List String) (cid : Nat)
    (sv : List String) :
    ∀ (st : Stores) (n2 : String), (alookup n2 st).isSome = true →
      (alookup n2 (sv.foldl (healNode full cid) st)).isSome = true := by
  induction sv with
  | nil => intro st n2 hp; exact hp
  | cons x t ih =>
    intro st n2 hp
    simp only [List.foldl_cons]
    exact ih _ n2 (healNode_pres full cid st x n2 hp)

theorem fold_healNode_good (full : List String) (c : Nat) (A B : String)
    (bytes : List Nat) :
    ∀ (sv : List String), (∀ x ∈ sv, x = A ∨ x = B) →
    ∀ st, Good st A B c bytes →
      Good (sv.foldl (healNode full c) st) A B c bytes := by
  intro sv
  induction sv with
  | nil => intro _ st h; exact h
  | cons x t ih =>
    intro hsub st h
    simp only [List.foldl_cons]
    have hstep : healNode full c st x = st := by
      rcases hsub x (List.mem_cons_self x t) with rfl | rfl
      · exact healNode_skip_present full c st x bytes h.1
      · exact healNode_skip_present full c st x bytes h.2
    rw [hstep]
    exact ih (fun y hy => hsub y (List.mem_cons_of_mem _ hy)) st h

theorem fold_healNode_half (full : List String) (c : Nat) (A B : String)
    (bytes : List Nat) (hAB : A ≠ B) (hBfull : B ∈ full)
    (hallfull : ∀ x ∈ full, x = A ∨ x = B) (hbytes : bytes ≠ []) :
    ∀ (sv : List String), (∀ x ∈ sv, x = A ∨ x = B) → A ∈ sv →
    ∀ st, Half st A B c bytes →
      Good (sv.foldl (healNode full c) st) A B c bytes := by
  intro sv
  induction sv with
  | nil => intro _ hA; cases hA
  | cons x t ih =>
    intro hsub hAin st hhalf
    simp only [List.foldl_cons]
    rcases hsub x (List.mem_cons_self x t) with rfl | rfl
    · have hgood := healNode_repair full c st x B bytes hAB hBfull hallfull
        hbytes hhalf
      exact fold_healNode_good full c x B bytes t
        (fun y hy => hsub y (List.mem_cons_of_mem _ hy)) _ hgood
    · have hstep : healNode full c st x = st :=
        healNode_skip_present full c st x bytes hhalf.2.2
      rw [hstep]
      have hAt : A ∈ t := by
        rcases List.mem_cons.mp hAin with h | h
        · exact absurd h hAB
        · exact h
      exact ih (fun y hy => hsub y (List.mem_cons_of_mem _ hy)) hAt st hhalf

theorem healChunk_heal (cm : List (Nat × ChunkInfo)) (c : Nat) (A B : String)
    (bytes : List Nat) (info : ChunkInfo)
    (hcm : alookup c cm = some info)
    (hAin : A ∈ info.chunk_servers) (hBin : B ∈ info.chunk_servers)
    (hAB : A ≠ B) (hall : ∀ x ∈ info.chunk_servers, x = A ∨ x = B)
    (hbytes : bytes ≠ []) :
    ∀ st, Good st A B c bytes ∨ Half st A B c bytes →
      Good (healChunk cm st c) A B c bytes := by
  intro st hst
  have hne : info.chunk_servers ≠ [] := by
    intro hh
    rw [hh] at hAin
    cases hAin
  have hunf : healChunk cm st c
      = info.chunk_servers.foldl (healNode info.chunk_servers c) st := by
    simp only [healChunk, hcm]
    rw [if_neg hne]
  rw [hunf]
  rcases hst with hg | hh
  · exact fold_healNode_good info.chunk_servers c A B bytes
      info.chunk_servers hall st hg
  · exact fold_healNode_half info.chunk_servers c A B bytes hAB hBin hall
      hbytes info.chunk_servers hall hAin st hh

theorem healChunk_other (cm : List (Nat × ChunkInfo)) (st : Stores) (d : Nat)
    (n2 : String) (c2 : Nat) (hc : c2 ≠ d) :
    storeGet (healChunk cm st d) n2 c2 = storeGet st n2 c2 := by
  unfold healChunk
  split
  · rfl
  · split
    · rfl
    · rename_i info hinfo hne
      exact fold_healNode_other info.chunk_servers d info.chunk_servers
        st n2 c2 hc

theorem healChunk_pres (cm : List (Nat × ChunkInfo)) (st : Stores) (d : Nat)
    (n2 : String) (hp : (alookup n2 st).isSome = true) :
    (alookup n2 (healChunk cm st d)).isSome = true := by
  unfold healChunk
  split
  · exact hp
  · split
    · exact hp
    · rename_i info hinfo hne
      exact fold_healNode_pres info.chunk_servers d info.chunk_servers
        st n2 hp

theorem healChunk_keep (cm : List (Nat × ChunkInfo)) (st : Stores) (d : Nat)
    (c : Nat) (A B : String) (bytes : List Nat) (hdc : c ≠ d) :
    (Good st A B c bytes → Good (healChunk cm st d) A B c bytes) ∧
    (Half st A B c bytes → Half (healChunk cm st d) A B c bytes) := by
  constructor
  · intro h
    exact ⟨by rw [healChunk_other cm st d A c hdc]; exact h.1,
      by rw [healChunk_other cm st d B c hdc]; exact h.2⟩
  · intro h
    exact ⟨healChunk_pres cm st d A h.1,
      by rw [healChunk_other cm st d A c hdc]; exact h.2.1,
      by rw [healChunk_other cm st d B c hdc]; exact h.2.2⟩

theorem fold_healChunk_good (cm : List (Nat × ChunkInfo)) (c : Nat)
    (A B : String) (bytes : List Nat) (info : ChunkInfo)
    (hcm : alookup c cm = some info)
    (hAin : A ∈ info.chunk_servers) (hBin : B ∈ info.chunk_servers)
    (hAB : A ≠ B) (hall : ∀ x ∈ info.chunk_servers, x = A ∨ x = B)
    (hbytes : bytes ≠ []) :
    ∀ (cids : List Nat) (st), Good st A B c bytes →
      Good (cids.foldl (healChunk cm) st) A B c bytes := by
  intro cids
  induction cids with
  | nil => intro st h; exact h
  | cons d t ih =>
    intro st h
    simp only [List.foldl_cons]
    by_cases hdc : d = c
    · subst hdc
      exact ih _ (healChunk_heal cm d A B bytes info hcm hAin hBin hAB hall
        hbytes st (Or.inl h))
    · exact ih _ ((healChunk_keep cm st d c A B bytes
        (fun hh => hdc hh.symm)).1 h)

theorem fold_healChunk_gh (cm : List (Nat × ChunkInfo)) (c : Nat)
    (A B : String) (bytes : List Nat) (info : ChunkInfo)
    (hcm : alookup c cm = some info)
    (hAin : A ∈ info.chunk_servers) (hBin : B ∈ info.chunk_servers)
    (hAB : A ≠ B) (hall : ∀ x ∈ info.chunk_servers, x = A ∨ x = B)
    (hbytes : bytes ≠ []) :
    ∀ (cids : List Nat) (st),
      Good st A B c bytes ∨ Half st A B c bytes →
      Good (cids.foldl (healChunk cm) st) A B c bytes ∨
        Half (cids.foldl (healChunk cm) st) A B c bytes := by
  intro cids
  induction cids with
  | nil => intro st h; exact h
  | cons d t ih =>
    intro st h
    simp only [List.foldl_cons]
    by_cases hdc : d = c
    · subst hdc
      exact ih _ (Or.inl (healChunk_heal cm d A B bytes info hcm hAin hBin
        hAB hall hbytes st h))
    · rcases h with hg | hh
      · exact ih _ (Or.inl ((healChunk_keep cm st d c A B bytes
          (fun hh2 => hdc hh2.symm)).1 hg))
      · exact ih _ (Or.inr ((healChunk_keep cm st d c A B bytes
          (fun hh2 => hdc hh2.symm)).2 hh))

theorem fold_healChunk_mem (cm : List (Nat × ChunkInfo)) (c : Nat)
    (A B : String) (bytes : List Nat) (info : ChunkInfo)
    (hcm : alookup c cm = some info)
    (hAin : A ∈ info.chunk_servers) (hBin : B ∈ info.chunk_servers)
    (hAB : A ≠ B) (hall : ∀ x ∈ info.chunk_servers, x = A ∨ x = B)
    (hbytes : bytes ≠ []) :
    ∀ (cids : List Nat) (st),
      Good st A B c bytes ∨ Half st A B c bytes → c ∈ cids →
      Good (cids.foldl (healChunk cm) st) A B c bytes := by
  intro cids
  induction cids with
  | nil => intro st _ hc; cases hc
  | cons d t ih =>
    intro st h hc
    simp only [List.foldl_cons]
    by_cases hdc : d = c
    · subst hdc
      exact fold_healChunk_good cm d A B bytes info hcm hAin hBin hAB hall
        hbytes t _ (healChunk_heal cm d A B bytes info hcm hAin hBin hAB hall
          hbytes st h)
    · have hct : c ∈ t := by
        rcases List.mem_cons.mp hc with hh | hh
        · exact absurd hh.symm hdc
        · exact hh
      have hkeep := healChunk_keep cm st d c A B bytes
        (fun hh2 => hdc hh2.symm)
      rcases h with hg | hh
      · exact ih _ (Or.inl (hkeep.1 hg)) hct
      · exact ih _ (Or.inr (hkeep.2 hh)) hct

theorem fold_files_good (cm : List (Nat × ChunkInfo)) (c : Nat)
    (A B : String) (bytes : List Nat) (info : ChunkInfo)
    (hcm : alookup c cm = some info)
    (hAin : A ∈ info.chunk_servers) (hBin : B ∈ info.chunk_servers)
    (hAB : A ≠ B) (hall : ∀ x ∈ info.chunk_servers, x = A ∨ x = B)
    (hbytes : bytes ≠ []) :
    ∀ (files : List (String × List Nat)) (st), Good st A B c bytes →
      Good (files.foldl (fun st2 pr => pr.2.foldl (healChunk cm) st2) st)
        A B c bytes := by
  intro files
  induction files with
  | nil => intro st h; exact h
  | cons f t ih =>
    intro st h
    simp only [List.foldl_cons]
    exact ih _ (fold_healChunk_good cm c A B bytes info hcm hAin hBin hAB
      hall hbytes f.2 st h)

theorem fold_files_mem (cm : List (Nat × ChunkInfo)) (c : Nat)
    (A B : String) (bytes : List Nat) (info : ChunkInfo)
    (hcm : alookup c cm = some info)
    (hAin : A ∈ info.chunk_servers) (hBin : B ∈ info.chunk_servers)
    (hAB : A ≠ B) (hall : ∀ x ∈ info.chunk_servers, x = A ∨ x = B)
    (hbytes : bytes ≠ []) :
    ∀ (files : List (String × List Nat)) (st),
      Good st A B c bytes ∨ Half st A B c bytes →
      (∃ pr ∈ files, c ∈ pr.2) →
      Good (files.foldl (fun st2 pr => pr.2.foldl (healChunk cm) st2) st)
        A B c bytes := by
  intro files
  induction files with
  | nil =>
    intro st _ hex
    obtain ⟨pr, hpr, _⟩ := hex
    cases hpr
  | cons f t ih =>
    intro st h hex
    simp only [List.foldl_cons]
    by_cases hcf : c ∈ f.2
    · exact fold_files_good cm c A B bytes info hcm hAin hBin hAB hall
        hbytes t _ (fold_healChunk_mem cm c A B bytes info hcm hAin hBin hAB
          hall hbytes f.2 st h hcf)
    · have hext : ∃ pr ∈ t, c ∈ pr.2 := by
        obtain ⟨pr, hpr, hcpr⟩ := hex
        rcases List.mem_cons.mp hpr with rfl | hprt
        · exact absurd hcpr hcf
        · exact ⟨pr, hprt, hcpr⟩
      exact ih _ (fold_healChunk_gh cm c A B bytes info hcm hAin hBin hAB
        hall hbytes f.2 st h) hext

/-- C3 (amended, proved): for every system state with a ChunkRecord whose
replica set consists of the two distinct reachable nodes A and B, where
the chunk is REFERENCED BY SOME FILE of the namespace, its NONEMPTY bytes
are present on node B and absent on node A, one cycle of the reconciler
detects the missing replica via Exists, fetches the bytes from B and Puts
them to A, after which every node of the replica set holds the identical
bytes.  (The two added provisos are forced: an unreferenced ChunkRecord is
never probed because the cycle iterates over file_to_chunks, and an empty
blob would be rejected by the node Put with a 400.) -/
theorem c3_self_healing (sys : Sys) (path : String) (cids : List Nat)
    (c : Nat) (A B : String) (info : ChunkInfo) (bytes : List Nat)
    (hfile : alookup path sys.meta.file_to_chunks = some cids)
    (hc : c ∈ cids)
    (hcm : alookup c sys.meta.chunk_metadata = some info)
    (hAB : A ≠ B)
    (hAin : A ∈ info.chunk_servers) (hBin : B ∈ info.chunk_servers)
    (hall : ∀ x ∈ info.chunk_servers, x = A ∨ x = B)
    (hApres : (alookup A sys.stores).isSome = true)
    (hAmiss : storeGet sys.stores A c = none)
    (hB : storeGet sys.stores B c = some bytes)
    (hbytes : bytes ≠ []) :
    ∀ s ∈ info.chunk_servers,
      storeGet (reconcileOnce sys).stores s c = some bytes := by
  have hgoal : Good (reconcileOnce sys).stores A B c bytes := by
    show Good (sys.meta.file_to_chunks.foldl
      (fun st pr => pr.2.foldl (healChunk sys.meta.chunk_metadata) st)
      sys.stores) A B c bytes
    exact fold_files_mem sys.meta.chunk_metadata c A B bytes info hcm hAin
      hBin hAB hall hbytes sys.meta.file_to_chunks sys.stores
      (Or.inr ⟨hApres, hAmiss, hB⟩) ⟨(path, cids), alookup_mem hfile, hc⟩
  intro s hs
  rcases hall s hs with rfl | rfl
  · exact hgoal.1
  · exact hgoal.2

/-- Witness for C3: chunk 0 of file "/f" missing on node1, present with
bytes [7] on node2; one cycle repairs node1, after which both replicas
hold [7]. -/
theorem c3_self_healing_witness :
    storeGet (reconcileOnce
      ⟨⟨[("/f", [0])], [(0, mkChunkInfo 0)], 1⟩,
       [("node1", []), ("node2", [(0, [7])]), ("node3", [])]⟩).stores
      "node1" 0 = some [7] ∧
    storeGet (reconcileOnce
      ⟨⟨[("/f", [0])], [(0, mkChunkInfo 0)], 1⟩,
       [("node1", []), ("node2", [(0, [7])]), ("node3", [])]⟩).stores
      "node2" 0 = some [7] := by
  have h := c3_self_healing
    ⟨⟨[("/f", [0])], [(0, mkChunkInfo 0)], 1⟩,
     [("node1", []), ("node2", [(0, [7])]), ("node3", [])]⟩
    "/f" [0] 0 "node1" "node2" (mkChunkInfo 0) [7]
    (by decide) (by decide) (by decide) (by decide) (by decide) (by decide)
    (by decide) (by decide) (by decide) (by decide) (by decide)
  exact ⟨h "node1" (by decide), h "node2" (by decide)⟩

end DFS
